import Mathlib

/-!
Shallow embedding of the two test-data generators of the ZK-FL repository:
`scripts/generate_balance_test_data.py` (Merkle tree over binary labels with
a mock arithmetic Poseidon hash) and `scripts/generate_training_test_data.py`
(fixed-point codec, gradient pipeline, and a second Merkle builder whose
placeholder hash is SHA-256 over decimal strings).

Python machine ints are modelled as `ℕ`/`ℤ` (all values in the scripts are
unbounded Python ints), Python floats as exact rationals (`ℚ`) for the codec
and exact reals (`ℝ`) for the gradient pipeline (`** 0.5` on a non-negative
float is modelled as `Real.sqrt`).  `while` loops are modelled by
fuel-indexed structural recursion with the fuel taken large enough, so that
every definition reduces in the kernel.  Python list indexing `l[i]` with a
possibly negative `i` is modelled by `pyGet`, and an operation that would
raise an exception returns `none`.
-/

set_option maxRecDepth 10000

/-! ## Balance generator: mock Poseidon hash (`poseidon_mock` & friends) -/

/-- BN254 scalar-field prime used by `poseidon_mock`. -/
def PRIME : ℕ := 21888242871839275222246405745257275088548364400416034343698204186575808495617

/-- Source: `poseidon_mock(inputs) = (sum(inputs) * 1234567 + 987654321) % PRIME`. -/
def poseidon_mock (inputs : List ℕ) : ℕ :=
  (inputs.sum * 1234567 + 987654321) % PRIME

/-- Source: `poseidon_hash_single(value) = poseidon_mock([value])`. -/
def poseidon_hash_single (value : ℕ) : ℕ := poseidon_mock [value]

/-- Source: `poseidon_hash_pair(left, right) = poseidon_mock([left, right])`. -/
def poseidon_hash_pair (left right : ℕ) : ℕ := poseidon_mock [left, right]

/-! ## Generic one-level combining step and bottom-up build loop

Both generators run the same loop `for i in range(0, len(current_level), 2)`
reading `current_level[i]` and, when present, `current_level[i+1]`; they only
differ in the boundary fallback for a lone last element: the balance script
duplicates it (`current_level[i]`), the training script uses `0`. -/

/-- One level-combining pass, boundary policy: duplicate the lone node. -/
def nextLevelDup (h : ℕ → ℕ → ℕ) : List ℕ → List ℕ
  | [] => []
  | [x] => [h x x]
  | a :: b :: rest => h a b :: nextLevelDup h rest

/-- One level-combining pass, boundary policy: missing right slot is `0`. -/
def nextLevelZero (h : ℕ → ℕ → ℕ) : List ℕ → List ℕ
  | [] => []
  | [x] => [h x 0]
  | a :: b :: rest => h a b :: nextLevelZero h rest

/-- The `while len(current_level) > 1` build loop (`tree` accumulates every
level, starting with the padded leaves); fuel-indexed. -/
def buildLoop (step : List ℕ → List ℕ) : ℕ → List ℕ → List (List ℕ)
  | 0, cur => [cur]
  | fuel + 1, cur =>
    if cur.length ≤ 1 then [cur] else cur :: buildLoop step fuel (step cur)

/-! ## Balance generator: `MerkleTree.__init__` -/

/-- The loop `temp = n; while temp > 1: temp = (temp + 1) // 2; depth += 1`. -/
def depth_loop : ℕ → ℕ → ℕ
  | 0, _ => 0
  | fuel + 1, t => if t ≤ 1 then 0 else depth_loop fuel ((t + 1) / 2) + 1

/-- Attribute `MerkleTree.depth` computed from the original leaf count. -/
def mt_depth (n : ℕ) : ℕ := depth_loop n n

/-- Attribute `MerkleTree.padded_n = 2 ** depth`. -/
def mt_padded_n (n : ℕ) : ℕ := 2 ^ mt_depth n

/-- Attribute `MerkleTree.leaf_hashes`: hash every raw leaf with `poseidon_hash_single`,
then append `poseidon_hash_single(0)` until length `padded_n`. -/
def mt_leaf_hashes (leaves : List ℕ) : List ℕ :=
  leaves.map poseidon_hash_single ++
    List.replicate (mt_padded_n leaves.length - leaves.length) (poseidon_hash_single 0)

/-- Attribute `MerkleTree.tree = self._build_tree(self.leaf_hashes)` (list of levels). -/
def mt_tree (leaves : List ℕ) : List (List ℕ) :=
  buildLoop (nextLevelDup poseidon_hash_pair) (mt_leaf_hashes leaves).length
    (mt_leaf_hashes leaves)

/-- Attribute `MerkleTree.root = self.tree[-1][0]`. -/
def mt_root (leaves : List ℕ) : ℕ := ((mt_tree leaves).getLastD []).headD 0

/-! ## Balance generator: `MerkleTree.get_proof` -/

/-- Python list access `l[i]`: non-negative indices are direct, negative
indices count from the end, anything out of range raises (`none`). -/
def pyGet (l : List ℕ) (i : ℤ) : Option ℕ :=
  if 0 ≤ i then l.get? i.toNat
  else if 0 ≤ i + l.length then l.get? (i + l.length).toNat
  else none

/-- One iteration body of the `for level in range(self.depth)` loop: choose
the sibling index (`current_index ∓ 1` by parity) and fetch the sibling,
falling back to `self.tree[level][current_index]` when the sibling index is
not `< len(self.tree[level])`. -/
def proof_step (lvl : List ℕ) (idx : ℤ) : Option ℕ :=
  let isRight : ℤ := idx % 2
  let sibIdx : ℤ := if isRight = 1 then idx - 1 else idx + 1
  if sibIdx < (lvl.length : ℤ) then pyGet lvl sibIdx else pyGet lvl idx

/-- The proof-gathering loop: walks `depth` levels of `self.tree`, collecting
`(siblings, path_indices)`; `current_index //= 2` between levels. -/
def proof_loop : ℕ → List (List ℕ) → ℤ → Option (List ℕ × List ℕ)
  | 0, _, _ => some ([], [])
  | _ + 1, [], _ => none
  | count + 1, lvl :: rest, idx =>
    match proof_step lvl idx with
    | none => none
    | some sib =>
      match proof_loop count rest (Int.fdiv idx 2) with
      | none => none
      | some (sibs, dirs) => some (sib :: sibs, (idx % 2).toNat :: dirs)

/-- Method `MerkleTree.get_proof(index)`: raises (`none`) when `index >= self.n`,
otherwise walks the tree from level `0` for `self.depth` levels. -/
def get_proof (leaves : List ℕ) (index : ℤ) : Option (List ℕ × List ℕ) :=
  if (leaves.length : ℤ) ≤ index then none
  else proof_loop (mt_depth leaves.length) (mt_tree leaves) index

/-! ## Balance generator: `verify_merkle_proof` -/

/-- The verification fold: combine `h(sibling, current)` when the recorded
direction bit is truthy (current node is the right child), else
`h(current, sibling)`. -/
def fold_up (h : ℕ → ℕ → ℕ) : ℕ → List (ℕ × ℕ) → ℕ
  | cur, [] => cur
  | cur, (sib, isR) :: rest => fold_up h (if isR ≠ 0 then h sib cur else h cur sib) rest

/-- Source: `verify_merkle_proof(leaf_value, siblings, path_indices, root)`: re-derive
the leaf hash, walk `zip(siblings, path_indices)` upwards, compare to root. -/
def verify_merkle_proof (leaf_value : ℕ) (siblings path_indices : List ℕ)
    (root : ℕ) : Bool :=
  fold_up poseidon_hash_pair (poseidon_hash_single leaf_value)
    (siblings.zip path_indices) == root

/-! ## Training generator: fixed-point codec (`to_fixed` / `from_fixed`) -/

/-- Constant `PRECISION = 1000` (fixed-point scale shared with the circuit). -/
def PRECISION : ℕ := 1000

/-- Python `int(x)`: truncation toward zero. -/
def pyInt (q : ℚ) : ℤ := if 0 ≤ q then ⌊q⌋ else ⌈q⌉

/-- Source: `to_fixed(value) = int(value * PRECISION)` (the script then renders the
integer as a decimal string; we keep the integer). -/
def to_fixed (value : ℚ) : ℤ := pyInt (value * (PRECISION : ℚ))

/-- Source: `from_fixed(value) = value / PRECISION`. -/
def from_fixed (value : ℤ) : ℚ := (value : ℚ) / (PRECISION : ℚ)

/-! ## Training generator: placeholder Poseidon = SHA-256 over decimal strings

`poseidon_hash(*inputs)` feeds `str(inp).encode()` for each input into a
SHA-256 context and returns `int(hexdigest, 16) % 2**251`.  We embed SHA-256
over byte lists (bytes are naturals `< 256`, words naturals `< 2^32`). -/

/-- Truncate to a 32-bit word. -/
def w32 (n : ℕ) : ℕ := n % 4294967296

/-- Right rotation of a 32-bit word (`n < 32`). -/
def rotr32 (x n : ℕ) : ℕ := w32 (x / 2 ^ n + x % 2 ^ n * 2 ^ (32 - n))

/-- SHA-256 round constants. -/
def shaK : List ℕ :=
  [1116352408, 1899447441, 3049323471, 3921009573, 961987163,
   1508970993, 2453635748, 2870763221, 3624381080, 310598401,
   607225278, 1426881987, 1925078388, 2162078206, 2614888103,
   3248222580, 3835390401, 4022224774, 264347078, 604807628,
   770255983, 1249150122, 1555081692, 1996064986, 2554220882,
   2821834349, 2952996808, 3210313671, 3336571891, 3584528711,
   113926993, 338241895, 666307205, 773529912, 1294757372,
   1396182291, 1695183700, 1986661051, 2177026350, 2456956037,
   2730485921, 2820302411, 3259730800, 3345764771, 3516065817,
   3600352804, 4094571909, 275423344, 430227734, 506948616,
   659060556, 883997877, 958139571, 1322822218, 1537002063,
   1747873779, 1955562222, 2024104815, 2227730452, 2361852424,
   2428436474, 2756734187, 3204031479, 3329325298]

/-- SHA-256 initial hash state. -/
def shaH0 : List ℕ :=
  [1779033703, 3144134277, 1013904242, 2773480762,
   1359893119, 2600822924, 528734635, 1541459225]

/-- Message-schedule sigma functions. -/
def sigma0 (x : ℕ) : ℕ := rotr32 x 7 ^^^ rotr32 x 18 ^^^ x / 2 ^ 3
def sigma1 (x : ℕ) : ℕ := rotr32 x 17 ^^^ rotr32 x 19 ^^^ x / 2 ^ 10

/-- Extend the 16 block words to 64 schedule words (`t` runs 16..63). -/
def schedLoop : ℕ → ℕ → List ℕ → List ℕ
  | 0, _, ws => ws
  | fuel + 1, t, ws =>
    let wt := w32 (sigma1 (ws.getD (t - 2) 0) + ws.getD (t - 7) 0 +
      sigma0 (ws.getD (t - 15) 0) + ws.getD (t - 16) 0)
    schedLoop fuel (t + 1) (ws ++ [wt])

/-- Full 64-word message schedule of one block. -/
def schedule (blockWords : List ℕ) : List ℕ := schedLoop 48 16 blockWords

/-- One SHA-256 compression round on the 8-word working state. -/
def shaRound (kt wt : ℕ) (st : List ℕ) : List ℕ :=
  match st with
  | [a, b, c, d, e, f, g, hh] =>
    let s1 := rotr32 e 6 ^^^ rotr32 e 11 ^^^ rotr32 e 25
    let ch := (e &&& f) ^^^ ((e ^^^ 4294967295) &&& g)
    let t1 := w32 (hh + s1 + ch + kt + wt)
    let s0 := rotr32 a 2 ^^^ rotr32 a 13 ^^^ rotr32 a 22
    let maj := (a &&& b) ^^^ (a &&& c) ^^^ (b &&& c)
    let t2 := w32 (s0 + maj)
    [w32 (t1 + t2), a, b, c, w32 (d + t1), e, f, g]
  | _ => st

/-- Run the 64 compression rounds (drives `shaK` and the schedule in step). -/
def shaCompress : List ℕ → List ℕ → List ℕ → List ℕ
  | [], _, st => st
  | _, [], st => st
  | k :: ks, w :: ws, st => shaCompress ks ws (shaRound k w st)

/-- Big-endian 4-byte groups to 32-bit words. -/
def bytesToWords : List ℕ → List ℕ
  | b0 :: b1 :: b2 :: b3 :: rest =>
    (b0 * 16777216 + b1 * 65536 + b2 * 256 + b3) :: bytesToWords rest
  | _ => []

/-- Process one 64-byte block into the running hash state. -/
def processBlock (hs : List ℕ) (block : List ℕ) : List ℕ :=
  let ws := schedule (bytesToWords block)
  let st := shaCompress shaK ws hs
  List.zipWith (fun a b => w32 (a + b)) hs st

/-- Fold all 64-byte blocks (fuel-indexed). -/
def processBlocks : ℕ → List ℕ → List ℕ → List ℕ
  | 0, hs, _ => hs
  | fuel + 1, hs, bytes =>
    if bytes = [] then hs
    else processBlocks fuel (processBlock hs (bytes.take 64)) (bytes.drop 64)

/-- Big-endian 8-byte encoding of the 64-bit message bit length. -/
def lenBytes (n : ℕ) : List ℕ :=
  [n / 2 ^ 56 % 256, n / 2 ^ 48 % 256, n / 2 ^ 40 % 256, n / 2 ^ 32 % 256,
   n / 2 ^ 24 % 256, n / 2 ^ 16 % 256, n / 2 ^ 8 % 256, n % 256]

/-- SHA-256 padding: `0x80`, zeros to 56 mod 64, then the bit length. -/
def shaPad (msg : List ℕ) : List ℕ :=
  msg ++ 128 :: List.replicate ((119 - msg.length % 64) % 64) 0 ++
    lenBytes (8 * msg.length)

/-- SHA-256 digest of a byte list, as the big-endian 256-bit integer
(`int(hexdigest, 16)`). -/
def sha256Nat (msg : List ℕ) : ℕ :=
  (processBlocks (shaPad msg).length shaH0 (shaPad msg)).foldl
    (fun acc h => acc * 4294967296 + h) 0

/-- ASCII bytes of the decimal representation `str(n)` of a natural. -/
def decDigitsAux : ℕ → ℕ → List ℕ
  | 0, _ => []
  | fuel + 1, n => if n < 10 then [48 + n] else decDigitsAux fuel (n / 10) ++ [48 + n % 10]

/-- Bytes of `str(n).encode()` for a non-negative Python int. -/
def decBytes (n : ℕ) : List ℕ := decDigitsAux (n + 1) n

/-- Source: `poseidon_hash(*inputs)`: SHA-256 of the concatenated decimal strings,
reduced mod `2**251`. -/
def poseidon_hash_list (inputs : List ℕ) : ℕ :=
  sha256Nat ((inputs.map decBytes).flatten) % 2 ^ 251

/-- The two-argument call shape `poseidon_hash(left, right)` used by
`build_merkle_tree`. -/
def poseidon_hash (left right : ℕ) : ℕ := poseidon_hash_list [left, right]

/-! ## Training generator: `build_merkle_tree` -/

/-- The loop `size = 1; depth = 0; while size < n: size *= 2; depth += 1`. -/
def growLoop (n : ℕ) : ℕ → ℕ → ℕ → ℕ × ℕ
  | 0, size, depth => (size, depth)
  | fuel + 1, size, depth =>
    if size < n then growLoop n fuel (size * 2) (depth + 1) else (size, depth)

/-- Padded size computed by `build_merkle_tree`. -/
def train_size (n : ℕ) : ℕ := (growLoop n n 1 0).1

/-- Tree depth computed by `build_merkle_tree`. -/
def train_depth (n : ℕ) : ℕ := (growLoop n n 1 0).2

/-- Source: `padded_leaves = leaves + [0] * (size - n)` (raw zeros, no hashing). -/
def train_padded (leaves : List ℕ) : List ℕ :=
  leaves ++ List.replicate (train_size leaves.length - leaves.length) 0

/-- The training generator's level list (boundary policy: zero fill). -/
def train_tree (leaves : List ℕ) : List (List ℕ) :=
  buildLoop (nextLevelZero poseidon_hash) (train_padded leaves).length
    (train_padded leaves)

/-- Source: `root = tree[-1][0]` in `build_merkle_tree`. -/
def train_root (leaves : List ℕ) : ℕ := ((train_tree leaves).getLastD []).headD 0

/-! ## Training generator: gradient pipeline (floats modelled as reals) -/

/-- Source: `compute_gradient(weights, features, label)`: prediction is the zip dot
product, error `label - prediction`, gradient `[-error * x for x in features]`. -/
def compute_gradient (weights features : List ℝ) (label : ℝ) : List ℝ :=
  let prediction := (List.zipWith (fun w x => w * x) weights features).sum
  let error := label - prediction
  features.map (fun x => -error * x)

/-- Source: `compute_l2_norm(vector) = sum(v * v for v in vector) ** 0.5`; `** 0.5`
on the non-negative sum of squares is real square root. -/
noncomputable def compute_l2_norm (vector : List ℝ) : ℝ :=
  Real.sqrt ((vector.map (fun v => v * v)).sum)

/-- Source: `clip_gradient(gradient, tau)`: if `norm > tau`, scale every component by
`tau / norm`, else return the gradient unchanged.  No validation of `tau`. -/
noncomputable def clip_gradient (gradient : List ℝ) (tau : ℝ) : List ℝ :=
  if tau < compute_l2_norm gradient then
    gradient.map (fun g => tau / compute_l2_norm gradient * g)
  else gradient

/-! ## Derived descriptions used by the proofs -/

/-- Straight-line description of the levels built by `buildLoop` when the
input length is an exact power of two `2 ^ d`: `d + 1` levels, each obtained
from the previous one by a single combining pass. -/
def mkChain (h : ℕ → ℕ → ℕ) : ℕ → List ℕ → List (List ℕ)
  | 0, l => [l]
  | d + 1, l => l :: mkChain h d (nextLevelDup h l)

/-- The last level of `mkChain`. -/
def chainRoot (h : ℕ → ℕ → ℕ) : ℕ → List ℕ → List ℕ
  | 0, l => l
  | d + 1, l => chainRoot h d (nextLevelDup h l)

-- sanity checks on concrete values
example : poseidon_hash_single 0 = 987654321 := by decide
example : mt_root [] = 987654321 := by decide
example : mt_depth 8 = 3 := by decide
example : mt_depth 1 = 0 := by decide
example : mt_padded_n 5 = 8 := by decide
example : to_fixed (9 / 10000) = 0 := by
  norm_num [to_fixed, pyInt, PRECISION]
example : to_fixed (-(9 / 10000) : ℚ) = 0 := by
  norm_num [to_fixed, pyInt, PRECISION]
example : to_fixed (3 / 2) = 1500 := by
  norm_num [to_fixed, pyInt, PRECISION]
example : Int.fdiv (-1) 2 = -1 := by decide
example : ((-3 : ℤ) % 2) = 1 := by decide
example : (5 ^^^ 3 : ℕ) = 6 := by decide

-- round-trip sanity on the 8-leaf concrete scenario from the spec
example :
    (get_proof [0, 1, 1, 0, 1, 1, 1, 0] 2).isSome := by decide
example :
    (get_proof [0, 1, 1, 0, 1, 1, 1, 0] 2).elim false
      (fun p => verify_merkle_proof 1 p.1 p.2 (mt_root [0, 1, 1, 0, 1, 1, 1, 0])) = true := by
  decide
example : get_proof [5] 0 = some ([], []) := by decide
example : verify_merkle_proof 5 [] [] (mt_root [5]) = true := by decide
-- negative-index behaviour (C10): -1 is accepted
example : (get_proof [0, 1, 1, 0, 1, 1, 1, 0] (-1)).isSome := by decide
-- index >= n is rejected
example : get_proof [0, 1] 2 = none := by decide

/-! ## Structure lemmas for the balance-generator tree -/

theorem depth_loop_eq_clog : ∀ fuel t : ℕ, t ≤ fuel + 1 → depth_loop fuel t = Nat.clog 2 t := by
  intro fuel
  induction fuel with
  | zero =>
    intro t ht
    simp [depth_loop, Nat.clog_of_right_le_one ht]
  | succ f ih =>
    intro t ht
    by_cases h1 : t ≤ 1
    · simp [depth_loop, h1, Nat.clog_of_right_le_one h1]
    · have hc : Nat.clog 2 t = Nat.clog 2 ((t + 1) / 2) + 1 := by
        rw [Nat.clog_of_two_le (by norm_num) (by omega)]
        congr 2
      rw [depth_loop, if_neg h1, ih ((t + 1) / 2) (by omega), hc]

theorem mt_depth_eq_clog (n : ℕ) : mt_depth n = Nat.clog 2 n :=
  depth_loop_eq_clog n n (by omega)

theorem le_mt_padded_n (n : ℕ) : n ≤ mt_padded_n n := by
  rw [mt_padded_n, mt_depth_eq_clog]
  exact Nat.le_pow_clog (by norm_num) n

theorem mt_leaf_hashes_length (leaves : List ℕ) :
    (mt_leaf_hashes leaves).length = 2 ^ mt_depth leaves.length := by
  have h := le_mt_padded_n leaves.length
  rw [mt_padded_n] at h
  simp [mt_leaf_hashes, mt_padded_n]
  omega

theorem nextLevelDup_length (h : ℕ → ℕ → ℕ) :
    ∀ l : List ℕ, (nextLevelDup h l).length = (l.length + 1) / 2
  | [] => by simp [nextLevelDup]
  | [x] => by simp [nextLevelDup]
  | a :: b :: rest => by
    simp [nextLevelDup, nextLevelDup_length h rest]
    omega

theorem nextLevelDup_getD (h : ℕ → ℕ → ℕ) :
    ∀ (l : List ℕ) (j : ℕ), 2 * j + 1 < l.length →
      (nextLevelDup h l).getD j 0 = h (l.getD (2 * j) 0) (l.getD (2 * j + 1) 0)
  | [], j, hj => by simp at hj
  | [x], j, hj => by simp at hj
  | a :: b :: rest, 0, hj => by simp [nextLevelDup]
  | a :: b :: rest, j + 1, hj => by
    have hr : 2 * j + 1 < rest.length := by
      simp only [List.length_cons] at hj; omega
    have ihr := nextLevelDup_getD h rest j hr
    have e1 : (a :: b :: rest).getD (2 * (j + 1)) 0 = rest.getD (2 * j) 0 := by
      rw [show 2 * (j + 1) = 2 * j + 1 + 1 by omega]
      simp only [List.getD_cons_succ]
    have e2 : (a :: b :: rest).getD (2 * (j + 1) + 1) 0 = rest.getD (2 * j + 1) 0 := by
      rw [show 2 * (j + 1) + 1 = 2 * j + 1 + 1 + 1 by omega]
      simp only [List.getD_cons_succ]
    rw [e1, e2]
    simp only [nextLevelDup, List.getD_cons_succ]
    exact ihr

theorem buildLoop_eq_mkChain (h : ℕ → ℕ → ℕ) :
    ∀ (d fuel : ℕ) (l : List ℕ), l.length = 2 ^ d → d ≤ fuel →
      buildLoop (nextLevelDup h) fuel l = mkChain h d l := by
  intro d
  induction d with
  | zero =>
    intro fuel l hl _
    cases fuel with
    | zero => simp [buildLoop, mkChain]
    | succ f => simp [buildLoop, mkChain, hl]
  | succ d ih =>
    intro fuel l hl hf
    cases fuel with
    | zero => omega
    | succ f =>
      have hp : (2 : ℕ) ^ (d + 1) = 2 ^ d * 2 := pow_succ 2 d
      have hpos : 0 < (2 : ℕ) ^ d := pow_pos (by norm_num) d
      rw [buildLoop, if_neg (by omega), mkChain]
      congr 1
      exact ih f (nextLevelDup h l)
        (by rw [nextLevelDup_length, hl, hp]; omega) (by omega)

theorem mt_tree_eq_mkChain (leaves : List ℕ) :
    mt_tree leaves =
      mkChain poseidon_hash_pair (mt_depth leaves.length) (mt_leaf_hashes leaves) := by
  apply buildLoop_eq_mkChain
  · exact mt_leaf_hashes_length leaves
  · rw [mt_leaf_hashes_length]
    exact Nat.le_of_lt (Nat.lt_two_pow _)

theorem mkChain_getLastD (h : ℕ → ℕ → ℕ) :
    ∀ (d : ℕ) (l x : List ℕ), (mkChain h d l).getLastD x = chainRoot h d l
  | 0, l, x => by simp [mkChain, chainRoot]
  | d + 1, l, x => by
    rw [mkChain, chainRoot, List.getLastD_cons, mkChain_getLastD h d _ l]

theorem mt_root_eq (leaves : List ℕ) :
    mt_root leaves =
      (chainRoot poseidon_hash_pair (mt_depth leaves.length)
        (mt_leaf_hashes leaves)).headD 0 := by
  rw [mt_root, mt_tree_eq_mkChain, mkChain_getLastD]

theorem mkChain_getD_length (h : ℕ → ℕ → ℕ) :
    ∀ (d : ℕ) (l : List ℕ), l.length = 2 ^ d → ∀ k, k ≤ d →
      ((mkChain h d l).getD k []).length = 2 ^ (d - k) := by
  intro d
  induction d with
  | zero =>
    intro l hl k hk
    interval_cases k
    simpa [mkChain] using hl
  | succ d ih =>
    intro l hl k hk
    have hp : (2 : ℕ) ^ (d + 1) = 2 ^ d * 2 := pow_succ 2 d
    cases k with
    | zero => simpa [mkChain] using hl
    | succ k =>
      rw [mkChain]
      simp only [List.getD_cons_succ]
      rw [ih (nextLevelDup h l) (by rw [nextLevelDup_length, hl, hp]; omega) k (by omega)]
      congr 1
      omega

/-! ## Python list access lemmas -/

theorem get?_eq_some_getD : ∀ (l : List ℕ) (k : ℕ), k < l.length → l.get? k = some (l.getD k 0)
  | [], k, hk => by simp at hk
  | a :: l, 0, _ => rfl
  | a :: l, k + 1, hk => by
    simpa [List.get?] using get?_eq_some_getD l k (by simpa using hk)

theorem pyGet_natCast (l : List ℕ) (k : ℕ) (hk : k < l.length) :
    pyGet l (k : ℤ) = some (l.getD k 0) := by
  rw [pyGet, if_pos (by omega), show ((k : ℤ)).toNat = k by omega]
  exact get?_eq_some_getD l k hk

theorem pyGet_isSome_of_neg (l : List ℕ) (idx : ℤ)
    (h1 : -(l.length : ℤ) ≤ idx) (h2 : idx < 0) : (pyGet l idx).isSome := by
  rw [pyGet, if_neg (by omega), if_pos (by omega)]
  rw [get?_eq_some_getD l _ (by omega)]
  rfl

theorem fdiv_natCast (i : ℕ) : Int.fdiv (i : ℤ) 2 = ((i / 2 : ℕ) : ℤ) :=
  (Int.ofNat_fdiv i 2).symm

/-! ## Choosing the sibling: the two parity cases of `proof_step` -/

theorem proof_step_even (l : List ℕ) (i : ℕ) (hpar : i % 2 = 0) (hlt : i + 1 < l.length) :
    proof_step l (i : ℤ) = some (l.getD (i + 1) 0) := by
  have h1 : ((i : ℤ) % 2) = 0 := by omega
  simp only [proof_step, h1]
  rw [if_pos (by push_cast; omega),
    show ((i : ℤ) + 1) = ((i + 1 : ℕ) : ℤ) by push_cast; ring]
  exact pyGet_natCast l (i + 1) hlt

theorem proof_step_odd (l : List ℕ) (i : ℕ) (hpar : i % 2 = 1) (hlt : i < l.length) :
    proof_step l (i : ℤ) = some (l.getD (i - 1) 0) := by
  have h1 : ((i : ℤ) % 2) = 1 := by omega
  simp only [proof_step, h1]
  rw [if_pos (by push_cast; omega),
    show ((i : ℤ) - 1) = ((i - 1 : ℕ) : ℤ) by omega]
  exact pyGet_natCast l (i - 1) (by omega)

theorem proof_step_isSome_of_neg (l : List ℕ) (idx : ℤ)
    (h1 : -(l.length : ℤ) ≤ idx) (h2 : idx < 0) (heven : l.length % 2 = 0) :
    (proof_step l idx).isSome := by
  have hpar : idx % 2 = 0 ∨ idx % 2 = 1 := by omega
  rcases hpar with hp | hp
  · -- even: sibling is idx + 1; idx = -1 is impossible since (-1) % 2 = 1
    simp only [proof_step, hp]
    rw [if_pos (by omega)]
    exact pyGet_isSome_of_neg l (idx + 1) (by omega) (by omega)
  · -- odd: sibling is idx - 1; idx = -len is impossible since len is even
    simp only [proof_step, hp]
    rw [if_pos (by omega)]
    exact pyGet_isSome_of_neg l (idx - 1) (by omega) (by omega)

/-! ## Unrolling `fold_up` over a recorded step -/

theorem fold_up_cons_left (h : ℕ → ℕ → ℕ) (cur sib : ℕ) (rest : List (ℕ × ℕ)) :
    fold_up h cur ((sib, 0) :: rest) = fold_up h (h cur sib) rest := by
  simp [fold_up]

theorem fold_up_cons_right (h : ℕ → ℕ → ℕ) (cur sib : ℕ) (rest : List (ℕ × ℕ)) :
    fold_up h cur ((sib, 1) :: rest) = fold_up h (h sib cur) rest := by
  simp [fold_up]

/-! ## Round trip: the collected proof re-derives the root -/

theorem proof_loop_chain (h : ℕ → ℕ → ℕ) :
    ∀ (d : ℕ) (l : List ℕ), l.length = 2 ^ d → ∀ i : ℕ, i < 2 ^ d →
      ∃ sibs dirs, proof_loop d (mkChain h d l) (i : ℤ) = some (sibs, dirs) ∧
        fold_up h (l.getD i 0) (sibs.zip dirs) = (chainRoot h d l).headD 0 := by
  intro d
  induction d with
  | zero =>
    intro l hl i hi
    have hi0 : i = 0 := by simp at hi; omega
    subst hi0
    obtain ⟨a, rfl⟩ := List.length_eq_one.mp (by simpa using hl)
    exact ⟨[], [], rfl, by simp [fold_up, chainRoot]⟩
  | succ d ih =>
    intro l hl i hi
    have hp : (2 : ℕ) ^ (d + 1) = 2 ^ d * 2 := pow_succ 2 d
    have hnext : (nextLevelDup h l).length = 2 ^ d := by
      rw [nextLevelDup_length, hl, hp]; omega
    have hdiv : i / 2 < 2 ^ d := by omega
    obtain ⟨sibs, dirs, hloop, hfold⟩ := ih (nextLevelDup h l) hnext (i / 2) hdiv
    have hfd : Int.fdiv (i : ℤ) 2 = ((i / 2 : ℕ) : ℤ) := fdiv_natCast i
    have hpar : i % 2 = 0 ∨ i % 2 = 1 := by omega
    rcases hpar with hp0 | hp1
    · -- current node is a left child
      have hlt1 : i + 1 < l.length := by rw [hl]; omega
      have hstep := proof_step_even l i hp0 hlt1
      refine ⟨l.getD (i + 1) 0 :: sibs, ((i : ℤ) % 2).toNat :: dirs, ?_, ?_⟩
      · rw [mkChain]
        simp only [proof_loop, hstep, hfd, hloop]
      · have htn : ((i : ℤ) % 2).toNat = 0 := by omega
        rw [htn, List.zip_cons_cons, fold_up_cons_left]
        have hg := nextLevelDup_getD h l (i / 2) (by rw [hl]; omega)
        rw [show 2 * (i / 2) = i by omega] at hg
        rw [← hg, chainRoot]
        exact hfold
    · -- current node is a right child
      have hstep := proof_step_odd l i hp1 (by rw [hl]; omega)
      refine ⟨l.getD (i - 1) 0 :: sibs, ((i : ℤ) % 2).toNat :: dirs, ?_, ?_⟩
      · rw [mkChain]
        simp only [proof_loop, hstep, hfd, hloop]
      · have htn : ((i : ℤ) % 2).toNat = 1 := by omega
        rw [htn, List.zip_cons_cons, fold_up_cons_right]
        have hg := nextLevelDup_getD h l (i / 2) (by rw [hl]; omega)
        rw [show 2 * (i / 2) = i - 1 by omega] at hg
        rw [show i - 1 + 1 = i by omega] at hg
        rw [← hg, chainRoot]
        exact hfold

/-! ## Negative indices pass validation and still walk the tree -/

theorem proof_loop_neg (h : ℕ → ℕ → ℕ) :
    ∀ (d : ℕ) (l : List ℕ), l.length = 2 ^ d → ∀ idx : ℤ,
      -((2 : ℤ) ^ d) ≤ idx → idx < 0 → (proof_loop d (mkChain h d l) idx).isSome := by
  intro d
  induction d with
  | zero => intro l _ idx _ _; rfl
  | succ d ih =>
    intro l hl idx h1 h2
    have hpN : (2 : ℕ) ^ (d + 1) = 2 ^ d * 2 := pow_succ 2 d
    have hpZ : (2 : ℤ) ^ (d + 1) = 2 ^ d * 2 := by ring
    have hlenZ : (l.length : ℤ) = (2 : ℤ) ^ (d + 1) := by exact_mod_cast hl
    have heven : l.length % 2 = 0 := by omega
    have hnext : (nextLevelDup h l).length = 2 ^ d := by
      rw [nextLevelDup_length, hl, hpN]; omega
    have hstep := proof_step_isSome_of_neg l idx (by omega) h2 heven
    obtain ⟨sib, hsib⟩ := Option.isSome_iff_exists.mp hstep
    have hed : Int.fdiv idx 2 = idx / 2 := Int.fdiv_eq_ediv idx (by norm_num)
    have hrec := ih (nextLevelDup h l) hnext (Int.fdiv idx 2)
      (by rw [hed]; omega) (by rw [hed]; omega)
    obtain ⟨⟨sibs, dirs⟩, hloop⟩ := Option.isSome_iff_exists.mp hrec
    rw [mkChain]
    simp only [proof_loop, hsib, hloop]
    rfl

/-! ## Boundary-policy agreement and training-generator size loop -/

theorem nextLevel_policy_eq (h : ℕ → ℕ → ℕ) :
    ∀ l : List ℕ, l.length % 2 = 0 → nextLevelDup h l = nextLevelZero h l
  | [], _ => rfl
  | [x], hx => by simp at hx
  | a :: b :: rest, hr => by
    rw [nextLevelDup, nextLevelZero,
      nextLevel_policy_eq h rest (by simp only [List.length_cons] at hr; omega)]

theorem buildLoop_policy (h : ℕ → ℕ → ℕ) :
    ∀ (fuel d : ℕ) (l : List ℕ), l.length = 2 ^ d →
      buildLoop (nextLevelDup h) fuel l = buildLoop (nextLevelZero h) fuel l := by
  intro fuel
  induction fuel with
  | zero => intro d l _; rfl
  | succ f ih =>
    intro d l hl
    by_cases h1 : l.length ≤ 1
    · rw [buildLoop, buildLoop, if_pos h1, if_pos h1]
    · obtain ⟨e, rfl⟩ : ∃ e, d = e + 1 := by
        rcases d with _ | d
        · simp at hl; omega
        · exact ⟨d, rfl⟩
      have hp : (2 : ℕ) ^ (e + 1) = 2 ^ e * 2 := pow_succ 2 e
      have heven : l.length % 2 = 0 := by omega
      rw [buildLoop, buildLoop, if_neg h1, if_neg h1, nextLevel_policy_eq h l heven]
      congr 1
      rw [← nextLevel_policy_eq h l heven]
      exact ih e (nextLevelDup h l) (by rw [nextLevelDup_length, hl, hp]; omega)

theorem growLoop_pow (n : ℕ) :
    ∀ (fuel size depth : ℕ), (∃ e, size = 2 ^ e) →
      ∃ e, (growLoop n fuel size depth).1 = 2 ^ e := by
  intro fuel
  induction fuel with
  | zero => intro s d hs; exact hs
  | succ f ih =>
    intro s d hs
    rw [growLoop]
    by_cases h1 : s < n
    · rw [if_pos h1]
      refine ih _ _ ?_
      obtain ⟨e, rfl⟩ := hs
      exact ⟨e + 1, by rw [pow_succ]⟩
    · rw [if_neg h1]; exact hs

theorem growLoop_ge (n : ℕ) :
    ∀ (fuel size depth : ℕ), n ≤ size * 2 ^ fuel → n ≤ (growLoop n fuel size depth).1 := by
  intro fuel
  induction fuel with
  | zero => intro s d hs; simpa using hs
  | succ f ih =>
    intro s d hs
    rw [growLoop]
    by_cases h1 : s < n
    · rw [if_pos h1]
      refine ih _ _ ?_
      have : s * 2 * 2 ^ f = s * 2 ^ (f + 1) := by ring
      omega
    · rw [if_neg h1]; omega

theorem train_size_pow (n : ℕ) : ∃ e, train_size n = 2 ^ e :=
  growLoop_pow n n 1 0 ⟨0, rfl⟩

theorem train_size_ge (n : ℕ) : n ≤ train_size n :=
  growLoop_ge n n 1 0 (by simpa using Nat.le_of_lt (Nat.lt_two_pow n))

theorem train_padded_length (leaves : List ℕ) :
    (train_padded leaves).length = train_size leaves.length := by
  have := train_size_ge leaves.length
  simp [train_padded]
  omega

theorem buildLoop_headD (step : List ℕ → List ℕ) :
    ∀ (fuel : ℕ) (l : List ℕ), (buildLoop step fuel l).headD [] = l
  | 0, l => rfl
  | fuel + 1, l => by
    rw [buildLoop]
    split <;> simp

/-! ## Indexing helpers -/

theorem getD_map {α β : Type} (f : α → β) (da : α) (db : β) :
    ∀ (l : List α) (i : ℕ), i < l.length → (l.map f).getD i db = f (l.getD i da)
  | [], i, hi => by simp at hi
  | a :: t, 0, _ => rfl
  | a :: t, i + 1, hi => by
    simpa using getD_map f da db t i (by simpa using hi)

theorem mt_leaf_hashes_getD (leaves : List ℕ) (i : ℕ) (hi : i < leaves.length) :
    (mt_leaf_hashes leaves).getD i 0 = poseidon_hash_single (leaves.getD i 0) := by
  rw [mt_leaf_hashes, List.getD_append _ _ _ _ (by simpa using hi)]
  exact getD_map poseidon_hash_single 0 0 leaves i hi

/-! ## Claim theorems -/

/-- C1: for every leaf sequence of length 1 to 64 and every index `i < n`,
`get_proof` succeeds and `verify_merkle_proof` accepts the produced proof
against the raw leaf value and the tree root. -/
theorem C1_roundtrip_proof_validity (leaves : List ℕ) (i : ℕ)
    (h1 : 1 ≤ leaves.length) (h64 : leaves.length ≤ 64) (hi : i < leaves.length) :
    ∃ sibs dirs, get_proof leaves (i : ℤ) = some (sibs, dirs) ∧
      verify_merkle_proof (leaves.getD i 0) sibs dirs (mt_root leaves) = true := by
  have hpad := le_mt_padded_n leaves.length
  rw [mt_padded_n] at hpad
  have hi2 : i < 2 ^ mt_depth leaves.length := by omega
  obtain ⟨sibs, dirs, hloop, hfold⟩ :=
    proof_loop_chain poseidon_hash_pair (mt_depth leaves.length) (mt_leaf_hashes leaves)
      (mt_leaf_hashes_length leaves) i hi2
  refine ⟨sibs, dirs, ?_, ?_⟩
  · rw [get_proof, if_neg (by omega), mt_tree_eq_mkChain]
    exact hloop
  · rw [verify_merkle_proof, mt_root_eq]
    rw [← mt_leaf_hashes_getD leaves i hi, hfold]
    exact beq_self_eq_true _

/-- C1 witness: the single-leaf tree `[5]` at index `0`. -/
theorem C1_roundtrip_proof_validity_witness :
    1 ≤ ([5] : List ℕ).length ∧ ([5] : List ℕ).length ≤ 64 ∧
    ∃ sibs dirs, get_proof [5] ((0 : ℕ) : ℤ) = some (sibs, dirs) ∧
      verify_merkle_proof (([5] : List ℕ).getD 0 0) sibs dirs (mt_root [5]) = true :=
  ⟨by decide, by decide,
    C1_roundtrip_proof_validity [5] 0 (by decide) (by decide) (by decide)⟩

/-- C2 counterexample: in the training generator, `build_merkle_tree [1, 2, 3]`
holds the raw value `0` in the padding slot of level 0, and `hashLeaf(0)`
(i.e. `poseidon_hash` of the single input `0`) is a different value — so the
claim "every padding slot holds hashLeaf(0)" fails on this generator. -/
theorem C2_padding_counterexample :
    ((train_tree [1, 2, 3]).headD []).getD 3 0 = 0 ∧ poseidon_hash_list [0] ≠ 0 := by
  constructor
  · rw [train_tree, buildLoop_headD]
    decide
  · decide

/-- C2 (amended): the balance generator does hash every raw leaf and pad with
`hashLeaf(0)` up to `2 ^ ceil(log2 n)`; the training generator's
`build_merkle_tree` performs no leaf hashing and pads with the raw field
element `0` instead. -/
theorem C2_padding_amended :
    (∀ leaves : List ℕ, 1 ≤ leaves.length →
      (mt_tree leaves).headD [] =
        leaves.map poseidon_hash_single ++
          List.replicate (2 ^ Nat.clog 2 leaves.length - leaves.length)
            (poseidon_hash_single 0) ∧
      ((mt_tree leaves).headD []).length = 2 ^ Nat.clog 2 leaves.length) ∧
    (∀ leaves : List ℕ, (train_tree leaves).headD [] =
      leaves ++ List.replicate (train_size leaves.length - leaves.length) 0) := by
  constructor
  · intro leaves _
    have hhead : (mt_tree leaves).headD [] = mt_leaf_hashes leaves := by
      rw [mt_tree, buildLoop_headD]
    refine ⟨?_, ?_⟩
    · rw [hhead, mt_leaf_hashes, mt_padded_n, mt_depth_eq_clog]
    · rw [hhead, mt_leaf_hashes_length, mt_depth_eq_clog]
  · intro leaves
    rw [train_tree, buildLoop_headD, train_padded]

/-- C2 witness: the three-leaf balance tree is padded to length 4 with
`hashLeaf(0)`, and the three-leaf training tree to `[1, 2, 3, 0]`. -/
theorem C2_padding_amended_witness :
    1 ≤ ([1, 2, 3] : List ℕ).length ∧
    ((mt_tree [1, 2, 3]).headD [] =
        [1, 2, 3].map poseidon_hash_single ++
          List.replicate (2 ^ Nat.clog 2 ([1, 2, 3] : List ℕ).length - 3)
            (poseidon_hash_single 0) ∧
      ((mt_tree [1, 2, 3]).headD []).length = 2 ^ Nat.clog 2 ([1, 2, 3] : List ℕ).length) ∧
    (train_tree [1, 2, 3]).headD [] =
      [1, 2, 3] ++ List.replicate (train_size ([1, 2, 3] : List ℕ).length - 3) 0 :=
  ⟨by decide, C2_padding_amended.1 [1, 2, 3] (by decide), C2_padding_amended.2 [1, 2, 3]⟩

/-- C5 counterexample: building a tree from zero leaves does not fail — the
balance generator returns the one-node tree with root
`poseidon_hash_single 0 = 987654321`, and the training generator returns the
tree `[[0]]` with root `0`. -/
theorem C5_empty_counterexample : mt_root [] = 987654321 ∧ train_root [] = 0 := by
  constructor
  · decide
  · decide

/-- C5 (amended): neither generator rejects an empty leaf list; the balance
generator's root is `hashLeaf(0)` and the training generator's root is the
raw padding value `0`. -/
theorem C5_empty_amended :
    mt_root [] = poseidon_hash_single 0 ∧
    mt_tree [] = [[poseidon_hash_single 0]] ∧
    train_root [] = 0 ∧ train_tree [] = [[0]] := by
  refine ⟨by decide, by decide, by decide, by decide⟩

/-- C6: `get_proof` fails (raises, modelled as `none`) exactly on
`index >= n`, and succeeds for every `0 <= index < n`. -/
theorem C6_index_validation (leaves : List ℕ) (index : ℤ) :
    ((leaves.length : ℤ) ≤ index → get_proof leaves index = none) ∧
    (0 ≤ index → index < (leaves.length : ℤ) → (get_proof leaves index).isSome) := by
  constructor
  · intro hge
    rw [get_proof, if_pos hge]
  · intro h0 hlt
    obtain ⟨i, rfl⟩ : ∃ i : ℕ, index = (i : ℤ) := ⟨index.toNat, by omega⟩
    have hpad := le_mt_padded_n leaves.length
    rw [mt_padded_n] at hpad
    have hi2 : i < 2 ^ mt_depth leaves.length := by omega
    obtain ⟨sibs, dirs, hloop, _⟩ :=
      proof_loop_chain poseidon_hash_pair (mt_depth leaves.length) (mt_leaf_hashes leaves)
        (mt_leaf_hashes_length leaves) i hi2
    rw [get_proof, if_neg (by omega), mt_tree_eq_mkChain, hloop]
    rfl

/-- C6 witness: on the two-leaf tree, index 2 is rejected and index 1 accepted. -/
theorem C6_index_validation_witness :
    get_proof [1, 2] 2 = none ∧ (get_proof [1, 2] 1).isSome :=
  ⟨(C6_index_validation [1, 2] 2).1 (by decide),
   (C6_index_validation [1, 2] 1).2 (by decide) (by decide)⟩

/-- C10: the validation in `get_proof` is one-sided — every negative index
`-n <= index < 0` passes the `index >= n` check and a proof is assembled via
Python negative-index list access, instead of the request being rejected. -/
theorem C10_negative_index_accepted (leaves : List ℕ) (index : ℤ)
    (h1 : -(leaves.length : ℤ) ≤ index) (h2 : index < 0) :
    (get_proof leaves index).isSome := by
  rw [get_proof, if_neg (by omega), mt_tree_eq_mkChain]
  have hpad := le_mt_padded_n leaves.length
  rw [mt_padded_n] at hpad
  have hcast : ((2 ^ mt_depth leaves.length : ℕ) : ℤ) = (2 : ℤ) ^ mt_depth leaves.length := by
    push_cast
    ring
  exact proof_loop_neg poseidon_hash_pair (mt_depth leaves.length) (mt_leaf_hashes leaves)
    (mt_leaf_hashes_length leaves) index (by omega) h2

/-- C10 witness: index `-2` on the two-leaf tree yields a proof. -/
theorem C10_negative_index_accepted_witness :
    -(([1, 2] : List ℕ).length : ℤ) ≤ -2 ∧ (-2 : ℤ) < 0 ∧ (get_proof [1, 2] (-2)).isSome :=
  ⟨by decide, by decide, C10_negative_index_accepted [1, 2] (-2) (by decide) (by decide)⟩

/-- C9: level 0 is always padded to a power-of-two length, so every level
below the root has even length, each next level is exactly half as long, and
the two generators' conflicting odd-length boundary policies
(duplicate-the-lone-node vs. zero-fill) are interchangeable on every built
tree: each generator produces the identical level list under the other
generator's policy. -/
theorem C9_boundary_policies_unreachable :
    (∀ (h : ℕ → ℕ → ℕ) (l : List ℕ), l.length % 2 = 0 →
      nextLevelDup h l = nextLevelZero h l) ∧
    (∀ (h : ℕ → ℕ → ℕ) (d : ℕ) (l : List ℕ), l.length = 2 ^ d → ∀ k, k < d →
      ((mkChain h d l).getD k []).length = 2 ^ (d - k) ∧
      ((mkChain h d l).getD k []).length % 2 = 0 ∧
      ((mkChain h d l).getD (k + 1) []).length = ((mkChain h d l).getD k []).length / 2) ∧
    (∀ leaves : List ℕ, mt_tree leaves =
      buildLoop (nextLevelZero poseidon_hash_pair) (mt_leaf_hashes leaves).length
        (mt_leaf_hashes leaves)) ∧
    (∀ leaves : List ℕ, train_tree leaves =
      buildLoop (nextLevelDup poseidon_hash) (train_padded leaves).length
        (train_padded leaves)) := by
  refine ⟨nextLevel_policy_eq, ?_, ?_, ?_⟩
  · intro h d l hl k hk
    have e1 := mkChain_getD_length h d l hl k (by omega)
    have e2 := mkChain_getD_length h d l hl (k + 1) (by omega)
    obtain ⟨m, hm⟩ : ∃ m, d - k = m + 1 := ⟨d - k - 1, by omega⟩
    have hpm : (2 : ℕ) ^ (m + 1) = 2 ^ m * 2 := pow_succ 2 m
    refine ⟨e1, ?_, ?_⟩
    · rw [e1, hm, hpm]; omega
    · rw [e1, e2, hm, show d - (k + 1) = m by omega, hpm]; omega
  · intro leaves
    rw [mt_tree]
    exact buildLoop_policy poseidon_hash_pair _ (mt_depth leaves.length) _
      (mt_leaf_hashes_length leaves)
  · intro leaves
    rw [train_tree]
    obtain ⟨e, he⟩ := train_size_pow leaves.length
    exact (buildLoop_policy poseidon_hash _ e _ (by rw [train_padded_length, he])).symm

/-- C9 witness: an even level combines identically under both policies, and
the level lengths halve on the concrete chain over `[1, 2]`. -/
theorem C9_boundary_policies_unreachable_witness :
    ([1, 2] : List ℕ).length % 2 = 0 ∧
    nextLevelDup poseidon_hash_pair [1, 2] = nextLevelZero poseidon_hash_pair [1, 2] ∧
    (((mkChain poseidon_hash_pair 1 [1, 2]).getD 0 []).length = 2 ^ (1 - 0) ∧
      ((mkChain poseidon_hash_pair 1 [1, 2]).getD 0 []).length % 2 = 0 ∧
      ((mkChain poseidon_hash_pair 1 [1, 2]).getD (0 + 1) []).length =
        ((mkChain poseidon_hash_pair 1 [1, 2]).getD 0 []).length / 2) :=
  ⟨by decide,
   C9_boundary_policies_unreachable.1 poseidon_hash_pair [1, 2] (by decide),
   C9_boundary_policies_unreachable.2.1 poseidon_hash_pair 1 [1, 2] (by decide) 0
     (by decide)⟩

/-! ## Fixed-point codec lemmas -/

theorem pyInt_err (y : ℚ) : |(pyInt y : ℚ) - y| < 1 := by
  rw [pyInt]
  split_ifs with hy
  · have h1 := Int.floor_le y
    have h2 := Int.sub_one_lt_floor y
    rw [abs_lt]
    constructor <;> linarith
  · have h1 := Int.le_ceil y
    have h2 := Int.ceil_lt_add_one y
    rw [abs_lt]
    constructor <;> linarith

/-- C3 counterexample: at `x = 9/10000` the code (`int()` truncation) gives
`to_fixed x = 0`, so the decode error is `9/10000 > 0.5 / SCALE = 1/2000`. -/
theorem C3_halfulp_counterexample :
    ¬ |from_fixed (to_fixed (9 / 10000)) - 9 / 10000| ≤ 1 / 2000 := by
  have h1 : to_fixed (9 / 10000) = 0 := by
    rw [to_fixed, pyInt, if_pos (by norm_num [PRECISION])]
    norm_num [PRECISION]
  rw [h1, from_fixed]
  norm_num [PRECISION]
  rw [show |(9 : ℚ) / 10000| = 9 / 10000 from abs_of_pos (by norm_num)]
  norm_num

/-- C3 (amended): `to_fixed` truncates toward zero (`int(x * SCALE)`), so the
codec round-trip error is strictly below one unit of precision `1 / SCALE`
(but not below half a unit, as the counterexample shows). -/
theorem C3_truncation_bound (x : ℚ) : |from_fixed (to_fixed x) - x| < 1 / 1000 := by
  have hP : ((PRECISION : ℕ) : ℚ) = 1000 := by norm_num [PRECISION]
  have h := pyInt_err (x * 1000)
  rw [from_fixed, to_fixed, hP]
  have e : (↑(pyInt (x * 1000)) : ℚ) / 1000 - x = (↑(pyInt (x * 1000)) - x * 1000) / 1000 := by
    ring
  rw [e, abs_div, abs_of_pos (by norm_num : (0 : ℚ) < 1000),
    div_lt_div_iff₀ (by norm_num) (by norm_num)]
  nlinarith [h]

/-! ## Gradient pipeline lemmas -/

theorem sum_sq_nonneg (v : List ℝ) : 0 ≤ (v.map (fun x => x * x)).sum := by
  apply List.sum_nonneg
  intro x hx
  obtain ⟨y, _, rfl⟩ := List.mem_map.mp hx
  exact mul_self_nonneg y

theorem compute_l2_norm_nonneg (v : List ℝ) : 0 ≤ compute_l2_norm v :=
  Real.sqrt_nonneg _

theorem sum_sq_scale (s : ℝ) :
    ∀ v : List ℝ,
      ((v.map (fun g => s * g)).map (fun x => x * x)).sum =
        s * s * (v.map (fun x => x * x)).sum
  | [] => by simp
  | a :: t => by
    simp only [List.map_cons, List.sum_cons, sum_sq_scale s t]
    ring

theorem compute_l2_norm_scale (s : ℝ) (v : List ℝ) :
    compute_l2_norm (v.map (fun g => s * g)) = |s| * compute_l2_norm v := by
  rw [compute_l2_norm, compute_l2_norm, sum_sq_scale,
    show s * s = s ^ 2 by ring,
    Real.sqrt_mul (sq_nonneg s), Real.sqrt_sq_eq_abs]

/-- C4: `clip_gradient` returns the vector unchanged iff its norm is at most
`tau`; otherwise it returns the vector rescaled componentwise by the positive
factor `tau / norm`, and the result has norm exactly `tau` (in the real-number
model of float arithmetic, hence "within rounding tolerance"). -/
theorem C4_clip_correctness (v : List ℝ) (tau : ℝ) (htau : 0 < tau) :
    (clip_gradient v tau = v ↔ compute_l2_norm v ≤ tau) ∧
    (tau < compute_l2_norm v →
      clip_gradient v tau = v.map (fun g => tau / compute_l2_norm v * g) ∧
      0 < tau / compute_l2_norm v ∧
      compute_l2_norm (clip_gradient v tau) = tau) := by
  constructor
  · constructor
    · intro heq
      by_contra hgt
      push_neg at hgt
      rw [clip_gradient, if_pos hgt] at heq
      have hpos : 0 < compute_l2_norm v := lt_trans htau hgt
      have hSpos : 0 < (v.map (fun x => x * x)).sum := by
        rw [compute_l2_norm] at hpos
        exact Real.sqrt_pos.mp hpos
      have hsum := congrArg (fun l : List ℝ => (l.map (fun x => x * x)).sum) heq
      simp only at hsum
      rw [sum_sq_scale] at hsum
      have hs1 : tau / compute_l2_norm v * (tau / compute_l2_norm v) = 1 := by
        have := mul_right_cancel₀ (ne_of_gt hSpos) (by linarith [hsum] : 
          tau / compute_l2_norm v * (tau / compute_l2_norm v) * (v.map (fun x => x * x)).sum
            = 1 * (v.map (fun x => x * x)).sum)
        exact this
      have hspos : 0 < tau / compute_l2_norm v := div_pos htau hpos
      have : tau / compute_l2_norm v = 1 := by nlinarith
      have : tau = compute_l2_norm v := by
        field_simp at this
        linarith
      linarith
    · intro hle
      rw [clip_gradient, if_neg (not_lt.mpr hle)]
  · intro hgt
    have hpos : 0 < compute_l2_norm v := lt_trans htau hgt
    refine ⟨by rw [clip_gradient, if_pos hgt], div_pos htau hpos, ?_⟩
    rw [clip_gradient, if_pos hgt, compute_l2_norm_scale,
      abs_of_pos (div_pos htau hpos), div_mul_cancel₀ tau (ne_of_gt hpos)]

/-- C4 witness: `[3, 4]` has norm 5 and is returned unchanged for `tau = 5`. -/
theorem C4_clip_correctness_witness :
    (0 : ℝ) < 5 ∧
    ((clip_gradient [3, 4] 5 = [3, 4] ↔ compute_l2_norm [3, 4] ≤ 5) ∧
      (5 < compute_l2_norm [3, 4] →
        clip_gradient [3, 4] 5 = [3, 4].map (fun g => 5 / compute_l2_norm [3, 4] * g) ∧
        0 < 5 / compute_l2_norm [3, 4] ∧
        compute_l2_norm (clip_gradient [3, 4] 5) = 5)) :=
  ⟨by norm_num, C4_clip_correctness [3, 4] 5 (by norm_num)⟩

/-- C7 counterexample: `clip_gradient` performs no threshold validation — at
the non-positive threshold `tau = 0` it still returns a value, namely
`clip([1], 0) = [0]`. -/
theorem C7_no_threshold_validation_counterexample : clip_gradient [1] 0 = [0] := by
  have hn : compute_l2_norm [1] = 1 := by
    rw [compute_l2_norm]
    norm_num
  rw [clip_gradient, hn]
  norm_num

/-- C7 (amended): `clip_gradient` raises nothing for `tau <= 0`; on any vector
with positive norm it returns the componentwise rescaling by `tau / norm`,
whose norm is `-tau` (= `|tau|`). -/
theorem C7_nonpositive_threshold_behaviour (v : List ℝ) (tau : ℝ)
    (h1 : tau ≤ 0) (h2 : 0 < compute_l2_norm v) :
    clip_gradient v tau = v.map (fun g => tau / compute_l2_norm v * g) ∧
    compute_l2_norm (clip_gradient v tau) = -tau := by
  have hbr : tau < compute_l2_norm v := lt_of_le_of_lt h1 h2
  refine ⟨by rw [clip_gradient, if_pos hbr], ?_⟩
  rw [clip_gradient, if_pos hbr, compute_l2_norm_scale,
    abs_of_nonpos (div_nonpos_of_nonpos_of_nonneg h1 (le_of_lt h2)),
    neg_mul, div_mul_cancel₀ tau (ne_of_gt h2)]

/-- C7 amended witness: at `v = [1]`, `tau = 0` the clipped result is `[0]`
with norm `-0 = 0`. -/
theorem C7_nonpositive_threshold_behaviour_witness :
    (0 : ℝ) ≤ 0 ∧ 0 < compute_l2_norm [1] ∧
    (clip_gradient [1] 0 = [1].map (fun g => 0 / compute_l2_norm [1] * g) ∧
      compute_l2_norm (clip_gradient [1] 0) = -0) := by
  have hn : compute_l2_norm [1] = 1 := by
    rw [compute_l2_norm]
    norm_num
  exact ⟨le_refl 0, by rw [hn]; norm_num,
    C7_nonpositive_threshold_behaviour [1] 0 (le_refl 0) (by rw [hn]; norm_num)⟩

/-- C8 counterexample: `compute_gradient` does not raise on mismatched
lengths — with `weights = [1, 2]`, `features = [3]`, `label = 0` the `zip`
silently truncates and the call returns `[9]`. -/
theorem C8_dimension_mismatch_counterexample : compute_gradient [1, 2] [3] 0 = [9] := by
  simp [compute_gradient]
  norm_num

/-- C8 (amended): `compute_gradient` never raises; the result always has the
length of `features`, the dot product runs over the `zip` (truncated to the
shorter operand), and each component satisfies the claimed formula
`result[i] = -(label - dot) * features[i]` — in particular whenever the
lengths match. -/
theorem C8_gradient_formula (weights features : List ℝ) (label : ℝ) :
    (compute_gradient weights features label).length = features.length ∧
    ∀ i, i < features.length →
      (compute_gradient weights features label).getD i 0 =
        -(label - (List.zipWith (fun w x => w * x) weights features).sum) *
          features.getD i 0 := by
  constructor
  · simp [compute_gradient]
  · intro i hi
    simp only [compute_gradient]
    exact getD_map _ 0 0 features i hi

/-- C8 amended witness: at `weights = [1, 2]`, `features = [2, 3]`,
`label = 1` the gradient is as the formula prescribes at index 0. -/
theorem C8_gradient_formula_witness :
    (compute_gradient [1, 2] [2, 3] 1).length = ([2, 3] : List ℝ).length ∧
    (0 : ℕ) < ([2, 3] : List ℝ).length ∧
    (compute_gradient [1, 2] [2, 3] 1).getD 0 0 =
      -(1 - (List.zipWith (fun w x => w * x) [1, 2] [2, 3]).sum) *
        ([2, 3] : List ℝ).getD 0 0 :=
  ⟨(C8_gradient_formula [1, 2] [2, 3] 1).1, by norm_num,
    (C8_gradient_formula [1, 2] [2, 3] 1).2 0 (by norm_num)⟩
